import Mathlib

/-!
Verification of the synthetic argument-set generator in
`Deploy/functiongemma-finetune/schema_utils.py`.

The Python module is pure: `_values_for_param` maps one JSON-Schema-like
fragment to a small list of representative candidate values, and
`generate_arg_sets` combines per-parameter candidates into a capped,
deduplicated list of argument mappings.

Modelling choices, each matching the Python runtime semantics:
* JSON values are the inductive `Val`.  Python `int` and `float` are both
  modelled by exact rationals (`Val.num`): Python compares and hashes
  `5 == 5.0` as equal numbers, and the midpoint computation
  `(minimum + maximum) / 2` is true division.  (Float rounding at
  magnitudes beyond 2^53 is outside the model.)
* Python dicts are association lists in insertion order with distinct
  keys; `Schema.WF` records the distinct-key guarantee of a real dict.
* Operations that can raise at runtime return `Except PyErr`:
  `tuple(sorted(args.items()))` is hashed by `key in seen`, which raises
  `TypeError` when some value is a `list`/`dict`, and
  `_values_for_param(items)[0]` raises `IndexError` on an empty
  candidate list.
* Python `==` on sampled values (numbers equal across int/float/bool,
  strings, None, element-wise on containers) is `pyEq`.
-/

/-- A JSON value as produced by the generator: the payload type of one
argument.  `null` is representable because schema `enum`/`default`
members pass through verbatim. -/
inductive Val : Type where
  | str : String → Val
  | num : Rat → Val
  | bool : Bool → Val
  | null : Val
  | arr : List Val → Val
  | obj : List (String × Val) → Val

/-- Runtime exceptions the Python code can raise on the modelled paths. -/
inductive PyErr : Type where
  | typeError : PyErr
  | indexError : PyErr
deriving DecidableEq

mutual
/-- Python `==` on the values the generator samples.  Numbers compare by
value across `int`/`float`/`bool` (`True == 1`, `5 == 5.0`); `None` is
equal only to itself; lists compare element-wise.  Python dict equality
is key-set based, but in this development object values never reach a
comparison — `canon_key` rejects them as unhashable first — so the
element-wise `obj` branch here is unreachable and unobservable. -/
def pyEq : Val → Val → Bool
  | .str a, .str b => a == b
  | .num a, .num b => a == b
  | .bool a, .bool b => a == b
  | .bool a, .num b => (if a then (1 : Rat) else 0) == b
  | .num a, .bool b => a == (if b then (1 : Rat) else 0)
  | .null, .null => true
  | .arr as, .arr bs => pyEqList as bs
  | .obj as, .obj bs => pyEqFields as bs
  | _, _ => false

/-- Element-wise Python `==` on lists. -/
def pyEqList : List Val → List Val → Bool
  | [], [] => true
  | a :: as, b :: bs => pyEq a b && pyEqList as bs
  | _, _ => false

/-- Field-wise Python `==` on object fields (see `pyEq` on why field
order is unobservable here). -/
def pyEqFields : List (String × Val) → List (String × Val) → Bool
  | [], [] => true
  | (k, a) :: as, (l, b) :: bs => k == l && pyEq a b && pyEqFields as bs
  | _, _ => false
end

/-- One JSON-Schema-like property fragment, restricted to the keywords the
code reads: `type`, `enum`, `minimum`, `maximum`, `items`, `default`.
`none` models an absent key.  (`items` is itself a fragment, hence the
inductive.) -/
inductive Fragment : Type where
  | mk (type : Option String) (enum : Option (List Val))
       (minimum : Option Rat) (maximum : Option Rat)
       (items : Option Fragment) (dflt : Option Val) : Fragment

/-- Python truthiness of the `items` dict: `if items` is false exactly for
the empty dict, i.e. no recognized key present. -/
def Fragment.isEmpty : Fragment → Bool
  | .mk none none none none none none => true
  | _ => false

/-- Python `int(x)` on a numeric value truncates toward zero. -/
def qtrunc (q : Rat) : Int := Int.tdiv q.num (q.den : Int)

/-- `_values_for_param(schema)`: the candidate values sampled for one
property fragment.  Mirrors the Python branch structure; the only failure
path is `_values_for_param(items)[0]` on an empty candidate list
(`IndexError`). -/
def values_for_param (f : Fragment) : Except PyErr (List Val) :=
  match f with
  | .mk ty en mn mx items df =>
    match en with
    | some es => .ok es
    | none =>
      let t := ty.getD "string"
      if t = "boolean" then .ok [.bool true, .bool false]
      else if t = "integer" ∨ t = "number" then
        let vals : List Rat :=
          match mn, mx with
          | some a, some b => [a, (a + b) / 2, b]
          | _, _ => [0, 1]
        if t = "integer" then .ok (vals.map (fun v => .num ((qtrunc v : Int) : Rat)))
        else .ok (vals.map .num)
      else if t = "array" then
        match items with
        | none => .ok [.arr [.str "item"]]
        | some it =>
          if it.isEmpty then .ok [.arr [.str "item"]]
          else
            match values_for_param it with
            | .error e => .error e
            | .ok [] => .error .indexError
            | .ok (v :: _) => .ok [.arr [v]]
      else if t = "object" then .ok [.obj []]
      else .ok [df.getD (.str "example")]
termination_by structural f

/-- One argument mapping (a Python dict in insertion order): parameter
name to sampled value. -/
abbrev ArgSet := List (String × Val)

/-- A parameter-schema object: the `properties` dict (insertion order)
and the `required` name list, the two keys `generate_arg_sets` reads. -/
structure Schema : Type where
  properties : List (String × Fragment)
  required : List String

/-- A real Python dict cannot hold duplicate keys; `WF` records that for
the `properties` association list. -/
def Schema.WF (s : Schema) : Prop := (s.properties.map Prod.fst).Nodup

/-- Python hashability of a sampled value: `list` and `dict` values are
unhashable, every other sampled value (str, int/float, bool, None) is
hashable. -/
def Val.hashable : Val → Bool
  | .arr _ => false
  | .obj _ => false
  | _ => true

/-- Lexicographic code-point comparison on char lists: Python `<=` on
strings, used by `sorted` over the dedup key. -/
def charsLe : List Char → List Char → Bool
  | [], _ => true
  | _ :: _, [] => false
  | a :: as, b :: bs =>
    if a.val < b.val then true
    else if b.val < a.val then false
    else charsLe as bs

/-- Python string `<=`. -/
def strLe (a b : String) : Bool := charsLe a.data b.data

/-- Insert one pair into a key-sorted pair list. -/
def ordInsert (p : String × Val) : ArgSet → ArgSet
  | [] => [p]
  | q :: rest => if strLe p.1 q.1 then p :: q :: rest else q :: ordInsert p rest

/-- `sorted(args.items())`: sort the key/value pairs by key.  Python's
sort is a stable mergesort comparing `(key, value)` tuples, but the keys
of one dict are distinct, so every comparison is decided by the keys and
any comparison sort — here insertion sort — produces the same list. -/
def sortPairs : ArgSet → ArgSet
  | [] => []
  | p :: rest => ordInsert p (sortPairs rest)

/-- `key = tuple(sorted(args.items()))` followed by the hash taken by
`key in seen` / `seen.add(key)`: sorting always succeeds (comparisons
only touch the distinct keys), and hashing the tuple raises `TypeError`
iff some value in it is unhashable. -/
def canon_key (args : ArgSet) : Except PyErr ArgSet :=
  if args.all (fun p => p.2.hashable) then .ok (sortPairs args) else .error .typeError

/-- Python `==` on two dedup keys (tuples of `(name, value)` pairs):
equal lengths and element-wise equality. -/
def keyEq : ArgSet → ArgSet → Bool
  | [], [] => true
  | (k, a) :: as, (l, b) :: bs => k == l && pyEq a b && keyEq as bs
  | _, _ => false

/-- `key in seen` for the `seen` set, by Python value equality (Python
set membership is hash-bucketed `==`). -/
def keyMem (key : ArgSet) (seen : List ArgSet) : Bool := seen.any (fun s => keyEq s key)

/-- The dedup-and-cap loop of `generate_arg_sets`: walk the accumulated
argument sets in order, skip those whose canonical key was seen, append
the rest to `unique`, and stop as soon as `unique` has `maxCases`
entries.  Errors when hashing a key whose values include a list/dict. -/
def dedup_loop (maxCases : Int) : List ArgSet → List ArgSet → List ArgSet → Except PyErr (List ArgSet)
  | [], _, unique => .ok unique
  | args :: rest, seen, unique =>
    match canon_key args with
    | .error e => .error e
    | .ok key =>
      if keyMem key seen then dedup_loop maxCases rest seen unique
      else
        let unique2 := unique ++ [args]
        if maxCases ≤ (unique2.length : Int) then .ok unique2
        else dedup_loop maxCases rest (key :: seen) unique2

/-- `itertools.product` over a list of candidate lists, in Python's
order: the rightmost factor varies fastest. -/
def listProd : List (List Val) → List (List Val)
  | [] => [[]]
  | vs :: rest => vs.flatMap (fun v => (listProd rest).map (fun t => v :: t))

/-- One pass of the optional-parameter loop body: for each existing set
and each candidate value, add an enriched copy (`enriched[name] = val`;
the name is fresh, so the dict update is an ordered append), keeping the
pre-expansion sets (`arg_sets.extend(new_sets)`). -/
def expand_step (sets : List ArgSet) (name : String) (cands : List Val) : List ArgSet :=
  sets ++ sets.flatMap (fun args => cands.map (fun v => args ++ [(name, v)]))

/-- The optional-parameter loop: expand one optional parameter at a time,
in schema declaration order. -/
def expand_optional : List (String × Fragment) → List ArgSet → Except PyErr (List ArgSet)
  | [], sets => .ok sets
  | (n, f) :: rest, sets =>
    match values_for_param f with
    | .error e => .error e
    | .ok cands => expand_optional rest (expand_step sets n cands)

/-- Candidate lists for the required specs, in declaration order
(`required_values` in the Python). -/
def required_values_of : List (String × Fragment) → Except PyErr (List (String × List Val))
  | [] => .ok []
  | (n, f) :: rest =>
    match values_for_param f with
    | .error e => .error e
    | .ok vs =>
      match required_values_of rest with
      | .error e => .error e
      | .ok tl => .ok ((n, vs) :: tl)

/-- The specs whose name is in `required`, in declaration order
(`required_specs` in the Python; `name in required` over a set of
strings is string membership). -/
def requiredSpecs (parameters : Schema) : List (String × Fragment) :=
  parameters.properties.filter (fun p => parameters.required.contains p.1)

/-- The remaining specs, in declaration order (`optional_specs`). -/
def optionalSpecs (parameters : Schema) : List (String × Fragment) :=
  parameters.properties.filter (fun p => !parameters.required.contains p.1)

/-- The required-product stage: one argument set per element of the
Cartesian product of the required candidate lists, each set assigning
the required names in declaration order (`args[name] = values[idx]`).
With no required parameters this is the single empty set. -/
def baseSets (requiredValues : List (String × List Val)) : List ArgSet :=
  (listProd (requiredValues.map Prod.snd)).map
    (fun t => (requiredValues.map Prod.fst).zip t)

/-- Everything in `generate_arg_sets` before the dedup loop: partition
the properties by membership in `required`, take the Cartesian product
of the required candidate lists, then layer in the optional parameters
one at a time. -/
def build_arg_sets (parameters : Schema) : Except PyErr (List ArgSet) :=
  match required_values_of (requiredSpecs parameters) with
  | .error e => .error e
  | .ok requiredValues =>
    expand_optional (optionalSpecs parameters) (baseSets requiredValues)

/-- The accumulated sets fed through the dedup-and-cap loop. -/
def dedup_stage (parameters : Schema) (maxCases : Int) : Except PyErr (List ArgSet) :=
  match build_arg_sets parameters with
  | .error e => .error e
  | .ok sets => dedup_loop maxCases sets [] []

/-- `generate_arg_sets(parameters, max_cases)`: capped deduplicated
argument sets, with the `if not unique: return [{}]` fallback. -/
def generate_arg_sets (parameters : Schema) (maxCases : Int) : Except PyErr (List ArgSet) :=
  match dedup_stage parameters maxCases with
  | .error e => .error e
  | .ok [] => .ok [[]]
  | .ok unique => .ok unique

/-! ### Concrete example schemas used by the claim theorems -/

/-- One required enum parameter `mode` and one optional boolean `flag`,
the schema of the spec's optional-omission example. -/
def modeFlagSchema : Schema :=
  { properties := [("mode", .mk none (some [.str "a", .str "b"]) none none none none),
                   ("flag", .mk (some "boolean") none none none none none)],
    required := ["mode"] }

/-- A single required array-typed parameter. -/
def reqArraySchema : Schema :=
  { properties := [("a", .mk (some "array") none none none none none)],
    required := ["a"] }

/-- No parameters at all. -/
def emptySchema : Schema := { properties := [], required := [] }

/-- One required parameter whose enum is the empty list. -/
def reqEmptyEnumSchema : Schema :=
  { properties := [("p", .mk none (some []) none none none none)],
    required := ["p"] }

/-- `required` names a parameter that `properties` does not declare. -/
def reqMissingSchema : Schema := { properties := [], required := ["x"] }

/-- One required parameter whose enum contains only `null`. -/
def nullEnumSchema : Schema :=
  { properties := [("p", .mk none (some [.null]) none none none none)],
    required := ["p"] }

/-- A single required boolean parameter. -/
def boolSchema : Schema :=
  { properties := [("p", .mk (some "boolean") none none none none none)],
    required := ["p"] }

/-! ### Claim theorems: concrete evaluations -/

/-- C1: the claimed totality fails on the code.  For the schema that
declares one required array-typed parameter, every accumulated argument
set holds a list value, so the first dedup key is unhashable and
`generate_arg_sets` raises `TypeError` instead of returning a non-empty
list of argument sets. -/
theorem c1_required_array_param_raises :
    generate_arg_sets reqArraySchema 24 = .error .typeError := rfl

/-- C2 counterexample: when `required` names `"x"` but `properties` does
not declare it, the generator returns the single empty argument set, so
the required name is not a key of every returned set as claimed. -/
theorem c2_required_not_in_properties_cex :
    "x" ∈ reqMissingSchema.required ∧
    generate_arg_sets reqMissingSchema 24 = .ok [[]] ∧
    "x" ∉ (([] : ArgSet).map Prod.fst) := by
  refine ⟨by simp [reqMissingSchema], rfl, by simp⟩

/-- C7: the optional-parameter pass keeps every pre-expansion set (the
expanded list extends the input list), and on the spec's mode/flag
example the returned sets include both the flag-omitted set
`{"mode": "a"}` and the enriched set `{"mode": "a", "flag": true}`. -/
theorem c7_optional_omission :
    (∀ (sets : List ArgSet) (name : String) (cands : List Val),
        ∃ tail, expand_step sets name cands = sets ++ tail) ∧
    ∃ l, generate_arg_sets modeFlagSchema 24 = .ok l ∧
      [("mode", Val.str "a")] ∈ l ∧
      [("mode", Val.str "a"), ("flag", Val.bool true)] ∈ l := by
  refine ⟨fun sets name cands => ⟨_, rfl⟩, ?_⟩
  refine ⟨_, rfl, ?_, ?_⟩ <;> simp

/-- C8 counterexample: a schema with one declared property (a required
parameter with an empty enum) reaches the `[{}]` fallback — the
deduplicated collection before the fallback is empty even though the
schema declares a parameter, contradicting the claim that the fallback
branch is reachable only with zero parameters. -/
theorem c8_fallback_with_property_cex :
    reqEmptyEnumSchema.properties.length = 1 ∧
    dedup_stage reqEmptyEnumSchema 24 = .ok [] ∧
    generate_arg_sets reqEmptyEnumSchema 24 = .ok [[]] := ⟨rfl, rfl, rfl⟩

/-- C10 counterexample: an enum containing `null` passes through
verbatim, so the returned argument mapping carries a `null` value. -/
theorem c10_null_enum_cex :
    generate_arg_sets nullEnumSchema 24 = .ok [[("p", Val.null)]] ∧
    Val.null ∈ ([("p", Val.null)] : ArgSet).map Prod.snd := by
  refine ⟨rfl, by simp⟩

/-! ### Structure lemmas about the dedup-and-cap loop -/

/-- The loop only ever appends to `unique`: an `ok` result extends the
accumulator. -/
theorem dedup_loop_extend (mc : Int) :
    ∀ (l seen u r : List ArgSet), dedup_loop mc l seen u = .ok r → ∃ t, r = u ++ t := by
  intro l
  induction l with
  | nil =>
    intro seen u r h
    simp only [dedup_loop, Except.ok.injEq] at h
    exact ⟨[], by simp [← h]⟩
  | cons args rest ih =>
    intro seen u r h
    simp only [dedup_loop] at h
    split at h
    · exact absurd h (by simp)
    · split at h
      · exact ih _ _ _ h
      · split at h
        · simp only [Except.ok.injEq] at h
          exact ⟨[args], h.symm⟩
        · obtain ⟨t, ht⟩ := ih _ _ _ h
          exact ⟨[args] ++ t, by rw [ht, List.append_assoc]⟩

/-- Every returned set was either already accumulated or came from the
input list. -/
theorem dedup_loop_mem (mc : Int) :
    ∀ (l seen u r : List ArgSet), dedup_loop mc l seen u = .ok r →
      ∀ x ∈ r, x ∈ u ∨ x ∈ l := by
  intro l
  induction l with
  | nil =>
    intro seen u r h x hx
    simp only [dedup_loop, Except.ok.injEq] at h
    rw [← h] at hx
    exact Or.inl hx
  | cons args rest ih =>
    intro seen u r h x hx
    simp only [dedup_loop] at h
    split at h
    · exact absurd h (by simp)
    · split at h
      · rcases ih _ _ _ h x hx with hu | hl
        · exact Or.inl hu
        · exact Or.inr (List.mem_cons_of_mem _ hl)
      · split at h
        · simp only [Except.ok.injEq] at h
          rw [← h] at hx
          rcases List.mem_append.mp hx with hu | ha
          · exact Or.inl hu
          · exact Or.inr (by simp [List.mem_singleton.mp ha])
        · rcases ih _ _ _ h x hx with hu | hl
          · rcases List.mem_append.mp hu with hu' | ha
            · exact Or.inl hu'
            · exact Or.inr (by simp [List.mem_singleton.mp ha])
          · exact Or.inr (List.mem_cons_of_mem _ hl)

/-- The loop never grows `unique` beyond the cap, provided it starts
below it. -/
theorem dedup_loop_length (mc : Int) :
    ∀ (l seen u r : List ArgSet), dedup_loop mc l seen u = .ok r →
      (u.length : Int) < mc → (r.length : Int) ≤ mc := by
  intro l
  induction l with
  | nil =>
    intro seen u r h hu
    simp only [dedup_loop, Except.ok.injEq] at h
    subst h
    exact le_of_lt hu
  | cons args rest ih =>
    intro seen u r h hu
    simp only [dedup_loop] at h
    split at h
    · exact absurd h (by simp)
    · split at h
      · exact ih _ _ _ h hu
      · split at h
        · simp only [Except.ok.injEq] at h
          subst h
          rename_i hcap
          simp only [List.length_append, List.length_singleton]
          push_cast
          omega
        · refine ih _ _ _ h ?_
          rename_i hcap
          simp only [not_le] at hcap
          simp only [List.length_append, List.length_singleton] at hcap ⊢
          push_cast at hcap ⊢
          omega

/-- Any cap at most `1` behaves exactly like cap `1`: the loop stops at
the first kept set either way. -/
theorem dedup_loop_le_one (mc : Int) (hmc : mc ≤ 1) :
    ∀ (l seen u : List ArgSet), dedup_loop mc l seen u = dedup_loop 1 l seen u := by
  intro l
  induction l with
  | nil => intro seen u; rfl
  | cons args rest ih =>
    intro seen u
    simp only [dedup_loop]
    cases canon_key args with
    | error e => rfl
    | ok key =>
      by_cases hm : keyMem key seen
      · simp only [hm, if_true, ih]
      · have h1 : (1 : Int) ≤ (((u ++ [args]).length : Nat) : Int) := by
          simp only [List.length_append, List.length_singleton]
          push_cast
          omega
        have h2 : mc ≤ (((u ++ [args]).length : Nat) : Int) := le_trans hmc h1
        simp only [hm, Bool.false_eq_true, if_false, if_pos h1, if_pos h2]

/-- With an empty `seen`/`unique` start and a non-empty input, the loop
returns a non-empty list. -/
theorem dedup_loop_ne_nil (mc : Int) (args : ArgSet) (l : List ArgSet) (r : List ArgSet)
    (h : dedup_loop mc (args :: l) [] [] = .ok r) : r ≠ [] := by
  simp only [dedup_loop] at h
  split at h
  · exact absurd h (by simp)
  · rw [if_neg (by simp [keyMem])] at h
    split at h
    · simp only [Except.ok.injEq] at h
      simp [← h]
    · obtain ⟨t, ht⟩ := dedup_loop_extend mc _ _ _ _ h
      simp [ht]

/-- Results of the same loop under two caps `M ≤ N`: the smaller-cap
result is a prefix of the larger-cap result. -/
theorem dedup_loop_mono (M N : Int) (hMN : M ≤ N) :
    ∀ (l seen u rM rN : List ArgSet),
      dedup_loop M l seen u = .ok rM → dedup_loop N l seen u = .ok rN →
      ∃ t, rN = rM ++ t := by
  intro l
  induction l with
  | nil =>
    intro seen u rM rN hM hN
    simp only [dedup_loop, Except.ok.injEq] at hM hN
    exact ⟨[], by simp [← hM, ← hN]⟩
  | cons args rest ih =>
    intro seen u rM rN hM hN
    simp only [dedup_loop] at hM hN
    split at hM
    · exact absurd hM (by simp)
    · rename_i key hck
      split at hN
      · rename_i e hck'
        rw [hck] at hck'
        exact absurd hck' (by simp)
      · rename_i key' hck'
        have hkey : key = key' := by
          injection hck.symm.trans hck'
        subst hkey
        by_cases hm : keyMem key seen
        · rw [if_pos hm] at hM hN
          exact ih _ _ _ _ hM hN
        · rw [if_neg hm] at hM hN
          by_cases hcM : M ≤ (((u ++ [args]).length : Nat) : Int)
          · rw [if_pos hcM] at hM
            simp only [Except.ok.injEq] at hM
            subst hM
            by_cases hcN : N ≤ (((u ++ [args]).length : Nat) : Int)
            · rw [if_pos hcN] at hN
              simp only [Except.ok.injEq] at hN
              exact ⟨[], by simp [← hN]⟩
            · rw [if_neg hcN] at hN
              exact dedup_loop_extend N _ _ _ _ hN
          · rw [if_neg hcM] at hM
            have hcN : ¬ N ≤ (((u ++ [args]).length : Nat) : Int) :=
              fun hle => hcM (le_trans hMN hle)
            rw [if_neg hcN] at hN
            exact ih _ _ _ _ hM hN

/-- The same dedup walk with no cap: the reference "all deduplicated
combinations" that the cap truncates. -/
def dedup_nocap : List ArgSet → List ArgSet → List ArgSet → Except PyErr (List ArgSet)
  | [], _, unique => .ok unique
  | args :: rest, seen, unique =>
    match canon_key args with
    | .error e => .error e
    | .ok key =>
      if keyMem key seen then dedup_nocap rest seen unique
      else dedup_nocap rest (key :: seen) (unique ++ [args])

/-- All deduplicated combinations of a schema, uncapped. -/
def dedup_nocap_stage (parameters : Schema) : Except PyErr (List ArgSet) :=
  match build_arg_sets parameters with
  | .error e => .error e
  | .ok sets => dedup_nocap sets [] []

/-- When the uncapped dedup has strictly more sets than the cap, the
capped loop returns exactly `maxCases` sets. -/
theorem dedup_loop_cap_exact (M : Int) :
    ∀ (l seen u rM full : List ArgSet),
      (u.length : Int) < M →
      dedup_loop M l seen u = .ok rM → dedup_nocap l seen u = .ok full →
      M < (full.length : Int) → (rM.length : Int) = M := by
  intro l
  induction l with
  | nil =>
    intro seen u rM full hu hM hfull hlen
    simp only [dedup_loop, Except.ok.injEq] at hM
    simp only [dedup_nocap, Except.ok.injEq] at hfull
    subst hM
    subst hfull
    omega
  | cons args rest ih =>
    intro seen u rM full hu hM hfull hlen
    simp only [dedup_loop] at hM
    simp only [dedup_nocap] at hfull
    split at hM
    · exact absurd hM (by simp)
    · rename_i key hck
      split at hfull
      · rename_i e hck'
        rw [hck] at hck'
        exact absurd hck' (by simp)
      · rename_i key' hck'
        have hkey : key = key' := by injection hck.symm.trans hck'
        subst hkey
        by_cases hm : keyMem key seen
        · rw [if_pos hm] at hM hfull
          exact ih _ _ _ _ hu hM hfull hlen
        · rw [if_neg hm] at hM hfull
          by_cases hcM : M ≤ (((u ++ [args]).length : Nat) : Int)
          · rw [if_pos hcM] at hM
            simp only [Except.ok.injEq] at hM
            subst hM
            simp only [List.length_append, List.length_singleton] at hcM ⊢
            push_cast at hcM ⊢
            omega
          · rw [if_neg hcM] at hM
            refine ih _ _ _ _ ?_ hM hfull hlen
            simp only [not_le, List.length_append, List.length_singleton] at hcM
            simp only [List.length_append, List.length_singleton]
            push_cast at hcM ⊢
            omega

/-- Case analysis of `generate_arg_sets`: an `ok` answer is either the
`[{}]` fallback from an empty dedup result, or the non-empty dedup
result itself. -/
theorem generate_arg_sets_cases (s : Schema) (mc : Int) (l : List ArgSet)
    (h : generate_arg_sets s mc = .ok l) :
    (dedup_stage s mc = .ok [] ∧ l = [[]]) ∨ (dedup_stage s mc = .ok l ∧ l ≠ []) := by
  unfold generate_arg_sets at h
  split at h
  · exact absurd h (by simp)
  · rename_i hds
    simp only [Except.ok.injEq] at h
    exact Or.inl ⟨hds, h.symm⟩
  · rename_i u hne heq
    simp only [Except.ok.injEq] at h
    subst h
    exact Or.inr ⟨heq, hne⟩

/-- Unfold an `ok` run of `dedup_stage` into its two stages. -/
theorem dedup_stage_eq (s : Schema) (mc : Int) (r : List ArgSet)
    (h : dedup_stage s mc = .ok r) :
    ∃ sets, build_arg_sets s = .ok sets ∧ dedup_loop mc sets [] [] = .ok r := by
  unfold dedup_stage at h
  split at h
  · exact absurd h (by simp)
  · rename_i sets hb
    exact ⟨sets, hb, h⟩

/-- Unfold an `ok` run of `dedup_nocap_stage` into its two stages. -/
theorem dedup_nocap_stage_eq (s : Schema) (r : List ArgSet)
    (h : dedup_nocap_stage s = .ok r) :
    ∃ sets, build_arg_sets s = .ok sets ∧ dedup_nocap sets [] [] = .ok r := by
  unfold dedup_nocap_stage at h
  split at h
  · exact absurd h (by simp)
  · rename_i sets hb
    exact ⟨sets, hb, h⟩

/-- C5: the cap is effectively coerced to at least `1` — the generator
behaves identically under `max_cases` and `max(1, max_cases)` — and any
returned list is non-empty with at most `max(1, max_cases)` entries (so
at most `max_cases` whenever `max_cases ≥ 1`). -/
theorem c5_cap_coercion :
    (∀ (s : Schema) (mc : Int), generate_arg_sets s mc = generate_arg_sets s (max 1 mc)) ∧
    (∀ (s : Schema) (mc : Int) (l : List ArgSet),
        generate_arg_sets s mc = .ok l → l ≠ [] ∧ (l.length : Int) ≤ max 1 mc) := by
  have hstage : ∀ (s : Schema) (mc : Int), dedup_stage s mc = dedup_stage s (max 1 mc) := by
    intro s mc
    by_cases h : (1 : Int) ≤ mc
    · rw [max_eq_right h]
    · have h1 : mc ≤ 1 := le_of_lt (lt_of_not_le h)
      rw [max_eq_left (le_of_lt (lt_of_not_le h))]
      unfold dedup_stage
      cases build_arg_sets s with
      | error e => rfl
      | ok sets => exact dedup_loop_le_one mc h1 sets [] []
  have hgen : ∀ (s : Schema) (mc : Int),
      generate_arg_sets s mc = generate_arg_sets s (max 1 mc) := by
    intro s mc
    unfold generate_arg_sets
    rw [hstage s mc]
  refine ⟨hgen, ?_⟩
  intro s mc l hl
  have hmax : (1 : Int) ≤ max 1 mc := le_max_left _ _
  rw [hgen s mc] at hl
  rcases generate_arg_sets_cases s (max 1 mc) l hl with ⟨_, rfl⟩ | ⟨hds, hne⟩
  · exact ⟨by simp, by simp⟩
  · obtain ⟨sets, hb, hdl⟩ := dedup_stage_eq _ _ _ hds
    refine ⟨hne, dedup_loop_length _ _ _ _ _ hdl ?_⟩
    simp

/-- C5 witness: at `max_cases = -3` the boolean schema behaves as at the
coerced cap, and the returned single set obeys the bounds. -/
theorem c5_cap_coercion_witness :
    generate_arg_sets boolSchema (-3) = generate_arg_sets boolSchema (max 1 (-3)) ∧
    ([[("p", Val.bool true)]] ≠ ([] : List ArgSet) ∧
      (([[("p", Val.bool true)]] : List ArgSet).length : Int) ≤ max 1 (-3)) :=
  ⟨c5_cap_coercion.1 boolSchema (-3), c5_cap_coercion.2 boolSchema (-3) _ rfl⟩

/-- C4: for caps `1 ≤ M ≤ N`, the `M`-capped result is a prefix of the
`N`-capped result; and when the uncapped deduplicated combinations
outnumber the cap, exactly `max_cases` sets come back. -/
theorem c4_cap_prefix_monotone :
    (∀ (s : Schema) (M N : Int) (lM lN : List ArgSet), 1 ≤ M → M ≤ N →
        generate_arg_sets s M = .ok lM → generate_arg_sets s N = .ok lN →
        ∃ t, lN = lM ++ t) ∧
    (∀ (s : Schema) (mc : Int) (full l : List ArgSet), 1 ≤ mc →
        dedup_nocap_stage s = .ok full → mc < (full.length : Int) →
        generate_arg_sets s mc = .ok l → (l.length : Int) = mc) := by
  constructor
  · intro s M N lM lN _ hMN hgM hgN
    rcases generate_arg_sets_cases s M lM hgM with ⟨hdsM, rfl⟩ | ⟨hdsM, hneM⟩
    · obtain ⟨sets, hb, hdl⟩ := dedup_stage_eq _ _ _ hdsM
      cases sets with
      | nil =>
        rcases generate_arg_sets_cases s N lN hgN with ⟨hdsN, rfl⟩ | ⟨hdsN, hneN⟩
        · exact ⟨[], rfl⟩
        · obtain ⟨sets', hb', hdl'⟩ := dedup_stage_eq _ _ _ hdsN
          rw [hb] at hb'
          injection hb' with hs
          subst hs
          simp only [dedup_loop, Except.ok.injEq] at hdl'
          exact absurd hdl'.symm hneN
      | cons a rest => exact absurd rfl (dedup_loop_ne_nil M a rest [] hdl)
    · obtain ⟨sets, hb, hdl⟩ := dedup_stage_eq _ _ _ hdsM
      rcases generate_arg_sets_cases s N lN hgN with ⟨hdsN, rfl⟩ | ⟨hdsN, hneN⟩
      · obtain ⟨sets', hb', hdl'⟩ := dedup_stage_eq _ _ _ hdsN
        rw [hb] at hb'
        injection hb' with hs
        subst hs
        cases sets with
        | nil =>
          simp only [dedup_loop, Except.ok.injEq] at hdl
          exact absurd hdl.symm hneM
        | cons a rest => exact absurd rfl (dedup_loop_ne_nil N a rest [] hdl')
      · obtain ⟨sets', hb', hdl'⟩ := dedup_stage_eq _ _ _ hdsN
        rw [hb] at hb'
        injection hb' with hs
        subst hs
        exact dedup_loop_mono M N hMN sets [] [] lM lN hdl hdl'
  · intro s mc full l hmc hfull hlen hg
    obtain ⟨setsF, hbF, hnc⟩ := dedup_nocap_stage_eq _ _ hfull
    rcases generate_arg_sets_cases s mc l hg with ⟨hds, rfl⟩ | ⟨hds, hne⟩
    · obtain ⟨sets, hb, hdl⟩ := dedup_stage_eq _ _ _ hds
      rw [hb] at hbF
      injection hbF with hs
      subst hs
      cases sets with
      | nil =>
        simp only [dedup_nocap, Except.ok.injEq] at hnc
        rw [← hnc] at hlen
        simp at hlen
        omega
      | cons a rest => exact absurd rfl (dedup_loop_ne_nil mc a rest [] hdl)
    · obtain ⟨sets, hb, hdl⟩ := dedup_stage_eq _ _ _ hds
      rw [hb] at hbF
      injection hbF with hs
      subst hs
      refine dedup_loop_cap_exact mc sets [] [] l full ?_ hdl hnc hlen
      simpa using hmc

/-- C4 witness: the boolean schema under caps 1 and 2 — the cap-1 list
is a prefix of the cap-2 list, and with two deduplicated combinations
against cap 1, exactly one set is returned. -/
theorem c4_cap_prefix_witness :
    (∃ t, [[("p", Val.bool true)], [("p", Val.bool false)]] =
      [[("p", Val.bool true)]] ++ t) ∧
    (([[("p", Val.bool true)]] : List ArgSet).length : Int) = 1 := by
  constructor
  · exact c4_cap_prefix_monotone.1 boolSchema 1 2 _ _ (by norm_num) (by norm_num) rfl rfl
  · refine c4_cap_prefix_monotone.2 boolSchema 1 _ _ (by norm_num) rfl ?_ rfl
    simp

/-- C8 amended: a schema with no properties returns exactly `[{}]` (the
single empty set survives dedup, so this is the normal path, not the
fallback); the `[{}]` fallback itself fires only when the pre-dedup
argument-set list is empty, which the counterexample shows can happen
with a declared property. -/
theorem c8_fallback_amended :
    (∀ (s : Schema) (mc : Int), s.properties = [] → generate_arg_sets s mc = .ok [[]]) ∧
    (∀ (s : Schema) (mc : Int), dedup_stage s mc = .ok [] → build_arg_sets s = .ok []) := by
  constructor
  · intro s mc h
    obtain ⟨props, req⟩ := s
    simp only at h
    subst h
    have hd : dedup_loop mc [[]] [] [] = .ok [[]] := by
      have hkey : canon_key ([] : ArgSet) = .ok [] := rfl
      have hmem : keyMem [] [] = false := rfl
      simp only [dedup_loop, hkey, hmem, Bool.false_eq_true, if_false]
      by_cases hmc : mc ≤ ((([] ++ [[]] : List ArgSet)).length : Int)
      · rw [if_pos hmc]
        rfl
      · rw [if_neg hmc]
        rfl
    have hstep : generate_arg_sets ⟨[], req⟩ mc =
        (match dedup_loop mc [[]] [] [] with
          | .error e => .error e
          | .ok [] => .ok [[]]
          | .ok unique => .ok unique) := rfl
    rw [hstep, hd]
  · intro s mc h
    obtain ⟨sets, hb, hdl⟩ := dedup_stage_eq _ _ _ h
    cases sets with
    | nil => exact hb
    | cons a rest => exact absurd rfl (dedup_loop_ne_nil mc a rest [] hdl)

/-- C8 witness: a property-free schema (with a stray `required` entry)
returns `[{}]` for an arbitrary cap, and the counterexample schema's
fallback is traced to an empty pre-dedup list. -/
theorem c8_fallback_witness :
    generate_arg_sets ⟨[], ["x"]⟩ 5 = .ok [[]] ∧
    build_arg_sets reqEmptyEnumSchema = .ok [] :=
  ⟨c8_fallback_amended.1 ⟨[], ["x"]⟩ 5 rfl, c8_fallback_amended.2 reqEmptyEnumSchema 24 rfl⟩

/-- C6: a numeric fragment with both bounds samples exactly
`[minimum, midpoint, maximum]` with midpoint `(minimum+maximum)/2`,
all three truncated to integers for the integer type; in particular
integer bounds 0..10 sample `[0, 5, 10]`. -/
theorem c6_numeric_sampler :
    (∀ (a b : Rat) (items : Option Fragment) (df : Option Val),
        values_for_param (.mk (some "number") none (some a) (some b) items df) =
          .ok [.num a, .num ((a + b) / 2), .num b]) ∧
    (∀ (a b : Rat) (items : Option Fragment) (df : Option Val),
        values_for_param (.mk (some "integer") none (some a) (some b) items df) =
          .ok [.num ((qtrunc a : Int) : Rat), .num ((qtrunc ((a + b) / 2) : Int) : Rat),
               .num ((qtrunc b : Int) : Rat)]) ∧
    values_for_param (.mk (some "integer") none (some 0) (some 10) none none) =
      .ok [.num 0, .num 5, .num 10] := by
  refine ⟨fun a b items df => by cases items <;> rfl,
          fun a b items df => by cases items <;> rfl, ?_⟩
  show Except.ok ([(0 : Rat), (0 + 10) / 2, 10].map (fun v => Val.num ((qtrunc v : Int) : Rat))) =
    Except.ok [Val.num 0, Val.num 5, Val.num 10]
  have h : ((0 : Rat) + 10) / 2 = 5 := by norm_num
  rw [List.map, List.map, List.map, List.map_nil, h]
  rfl

/-- C9: a numeric fragment with exactly one of `minimum`/`maximum`
present degrades to the default candidate sequence `[0, 1]` without
failing, for both the integer and the number type. -/
theorem c9_partial_bounds_default :
    ∀ (ty : String) (mn mx : Option Rat) (items : Option Fragment) (df : Option Val),
      (ty = "integer" ∨ ty = "number") →
      ((∃ a, mn = some a ∧ mx = none) ∨ (mn = none ∧ ∃ b, mx = some b)) →
      values_for_param (.mk (some ty) none mn mx items df) = .ok [.num 0, .num 1] := by
  intro ty mn mx items df hty hb
  rcases hb with ⟨a, rfl, rfl⟩ | ⟨rfl, b, rfl⟩ <;> rcases hty with rfl | rfl <;>
    cases items <;> rfl

/-- C9 witness: an integer fragment with only a minimum samples `[0, 1]`. -/
theorem c9_partial_bounds_witness :
    values_for_param (.mk (some "integer") none (some 3) none none none) = .ok [.num 0, .num 1] :=
  c9_partial_bounds_default "integer" (some 3) none none none (Or.inl rfl) (Or.inl ⟨3, rfl, rfl⟩)

/-! ### Required-coverage lemmas -/

/-- Tuples of the Cartesian product have one entry per factor. -/
theorem listProd_length : ∀ (L : List (List Val)) (t : List Val),
    t ∈ listProd L → t.length = L.length := by
  intro L
  induction L with
  | nil =>
    intro t ht
    simp only [listProd, List.mem_singleton] at ht
    simp [ht]
  | cons vs rest ih =>
    intro t ht
    simp only [listProd, List.mem_flatMap, List.mem_map] at ht
    obtain ⟨v, _, t', ht', rfl⟩ := ht
    simp [ih t' ht']

/-- The Cartesian product of non-empty factors is non-empty. -/
theorem listProd_ne_nil : ∀ (L : List (List Val)),
    (∀ vs ∈ L, vs ≠ []) → listProd L ≠ [] := by
  intro L
  induction L with
  | nil => intro _; simp [listProd]
  | cons vs rest ih =>
    intro h
    have hrest : listProd rest ≠ [] := ih (fun l hl => h l (by simp [hl]))
    cases vs with
    | nil => exact absurd rfl (h [] (by simp))
    | cons v vs' =>
      simp only [listProd, List.flatMap_cons]
      intro hcontra
      rcases List.append_eq_nil.mp hcontra with ⟨h1, _⟩
      exact hrest (List.map_eq_nil_iff.mp h1)

/-- `required_values_of` keeps the spec names, in order. -/
theorem required_values_names : ∀ (specs : List (String × Fragment)) (rv : List (String × List Val)),
    required_values_of specs = .ok rv → rv.map Prod.fst = specs.map Prod.fst := by
  intro specs
  induction specs with
  | nil =>
    intro rv h
    simp only [required_values_of, Except.ok.injEq] at h
    simp [← h]
  | cons p rest ih =>
    intro rv h
    obtain ⟨n, f⟩ := p
    simp only [required_values_of] at h
    split at h
    · exact absurd h (by simp)
    · split at h
      · exact absurd h (by simp)
      · rename_i tl htl
        simp only [Except.ok.injEq] at h
        subst h
        simp [ih tl htl]

/-- Every entry of `required_values_of` records the sampled candidates of
one input spec. -/
theorem required_values_mem : ∀ (specs : List (String × Fragment)) (rv : List (String × List Val)),
    required_values_of specs = .ok rv →
    ∀ q ∈ rv, ∃ f, (q.1, f) ∈ specs ∧ values_for_param f = .ok q.2 := by
  intro specs
  induction specs with
  | nil =>
    intro rv h q hq
    simp only [required_values_of, Except.ok.injEq] at h
    rw [← h] at hq
    exact absurd hq (by simp)
  | cons p rest ih =>
    intro rv h q hq
    obtain ⟨n, f⟩ := p
    simp only [required_values_of] at h
    split at h
    · exact absurd h (by simp)
    · rename_i vs hvs
      split at h
      · exact absurd h (by simp)
      · rename_i tl htl
        simp only [Except.ok.injEq] at h
        rw [← h] at hq
        rcases List.mem_cons.mp hq with rfl | hq'
        · exact ⟨f, by simp, hvs⟩
        · obtain ⟨f', hf', hv'⟩ := ih tl htl q hq'
          exact ⟨f', List.mem_cons_of_mem _ hf', hv'⟩

/-- The optional-parameter pass never removes a key that every incoming
set already has. -/
theorem expand_optional_keys (n : String) : ∀ (specs : List (String × Fragment))
    (sets r : List ArgSet), expand_optional specs sets = .ok r →
    (∀ x ∈ sets, n ∈ x.map Prod.fst) → ∀ x ∈ r, n ∈ x.map Prod.fst := by
  intro specs
  induction specs with
  | nil =>
    intro sets r h hall
    simp only [expand_optional, Except.ok.injEq] at h
    subst h
    exact hall
  | cons p rest ih =>
    intro sets r h hall
    obtain ⟨m, f⟩ := p
    simp only [expand_optional] at h
    split at h
    · exact absurd h (by simp)
    · refine ih _ _ h ?_
      intro x hx
      simp only [expand_step, List.mem_append, List.mem_flatMap, List.mem_map] at hx
      rcases hx with hx | ⟨args, hargs, v, _, rfl⟩
      · exact hall x hx
      · simp only [List.map_append, List.mem_append]
        exact Or.inl (hall args hargs)

/-- The optional-parameter pass keeps a non-empty collection non-empty. -/
theorem expand_optional_ne_nil : ∀ (specs : List (String × Fragment)) (sets r : List ArgSet),
    expand_optional specs sets = .ok r → sets ≠ [] → r ≠ [] := by
  intro specs
  induction specs with
  | nil =>
    intro sets r h hne
    simp only [expand_optional, Except.ok.injEq] at h
    subst h
    exact hne
  | cons p rest ih =>
    intro sets r h hne
    obtain ⟨m, f⟩ := p
    simp only [expand_optional] at h
    split at h
    · exact absurd h (by simp)
    · refine ih _ _ h ?_
      intro hc
      rcases List.append_eq_nil.mp hc with ⟨h1, _⟩
      exact hne h1

/-- Unfold an `ok` run of `build_arg_sets` into its stages. -/
theorem build_arg_sets_eq (s : Schema) (sets : List ArgSet)
    (h : build_arg_sets s = .ok sets) :
    ∃ rv, required_values_of (requiredSpecs s) = .ok rv ∧
      expand_optional (optionalSpecs s) (baseSets rv) = .ok sets := by
  unfold build_arg_sets at h
  split at h
  · exact absurd h (by simp)
  · rename_i rv hrv
    exact ⟨rv, hrv, h⟩

/-- Every base set assigns exactly the required-spec names. -/
theorem baseSets_keys (rv : List (String × List Val)) (x : ArgSet)
    (hx : x ∈ baseSets rv) : x.map Prod.fst = rv.map Prod.fst := by
  simp only [baseSets, List.mem_map] at hx
  obtain ⟨t, ht, rfl⟩ := hx
  have hlen : t.length = rv.length := by
    simpa using listProd_length _ t ht
  exact List.map_fst_zip _ t (by simp [hlen])

/-- If every required parameter has candidates, the base stage is
non-empty. -/
theorem baseSets_ne_nil (rv : List (String × List Val))
    (h : ∀ q ∈ rv, q.2 ≠ ([] : List Val)) : baseSets rv ≠ [] := by
  simp only [baseSets]
  intro hc
  have hprod : listProd (rv.map Prod.snd) ≠ [] := by
    refine listProd_ne_nil _ ?_
    intro vs hvs
    simp only [List.mem_map] at hvs
    obtain ⟨q, hq, rfl⟩ := hvs
    exact h q hq
  exact hprod (List.map_eq_nil_iff.mp hc)

/-- An empty dedup-stage result means the pre-dedup list was already
empty. -/
theorem dedup_stage_nil (s : Schema) (mc : Int) (h : dedup_stage s mc = .ok []) :
    build_arg_sets s = .ok [] := by
  obtain ⟨sets, hb, hdl⟩ := dedup_stage_eq _ _ _ h
  cases sets with
  | nil => exact hb
  | cons a rest => exact absurd rfl (dedup_loop_ne_nil mc a rest [] hdl)

/-- C2 amended: when every required name is declared under `properties`
and every required property samples a non-empty candidate list, every
name in `required` is a key of every returned argument set.  (Required
names missing from `properties` are silently ignored — see the
counterexample — and a required property with an empty enum empties the
whole result into the `[{}]` fallback.) -/
theorem c2_required_coverage_amended :
    ∀ (s : Schema) (mc : Int) (l : List ArgSet) (args : ArgSet) (n : String),
      (∀ r ∈ s.required, ∃ f, (r, f) ∈ s.properties) →
      (∀ p ∈ s.properties, p.1 ∈ s.required →
        ∀ vs, values_for_param p.2 = .ok vs → vs ≠ []) →
      generate_arg_sets s mc = .ok l → args ∈ l → n ∈ s.required →
      n ∈ args.map Prod.fst := by
  intro s mc l args n hreq hne hg hmem hn
  rcases generate_arg_sets_cases s mc l hg with ⟨hds, rfl⟩ | ⟨hds, _⟩
  · have hb : build_arg_sets s = .ok [] := dedup_stage_nil s mc hds
    obtain ⟨rv, hrv, hexp⟩ := build_arg_sets_eq s [] hb
    have hnonempty : ∀ q ∈ rv, q.2 ≠ ([] : List Val) := by
      intro q hq
      obtain ⟨f, hf, hv⟩ := required_values_mem _ _ hrv q hq
      have hsplit := List.mem_filter.mp hf
      refine hne (q.1, f) hsplit.1 ?_ q.2 hv
      exact List.elem_iff.mp hsplit.2
    have hbase : baseSets rv ≠ [] := baseSets_ne_nil rv hnonempty
    exact absurd rfl (expand_optional_ne_nil _ _ _ hexp hbase)
  · obtain ⟨sets, hb, hdl⟩ := dedup_stage_eq _ _ _ hds
    have hargs_sets : args ∈ sets := by
      rcases dedup_loop_mem mc sets [] [] l hdl args hmem with h0 | h1
      · exact absurd h0 (by simp)
      · exact h1
    obtain ⟨rv, hrv, hexp⟩ := build_arg_sets_eq s sets hb
    obtain ⟨f, hf⟩ := hreq n hn
    have hnr : (n, f) ∈ requiredSpecs s := by
      simp only [requiredSpecs, List.mem_filter]
      exact ⟨hf, List.elem_iff.mpr hn⟩
    have hname : n ∈ (requiredSpecs s).map Prod.fst :=
      List.mem_map.mpr ⟨(n, f), hnr, rfl⟩
    have hbasekeys : ∀ x ∈ baseSets rv, n ∈ x.map Prod.fst := by
      intro x hx
      rw [baseSets_keys rv x hx, required_values_names _ _ hrv]
      exact hname
    exact expand_optional_keys n _ _ _ hexp hbasekeys args hargs_sets

/-- C2 witness: for the boolean schema, the required name `"p"` is a key
of the first returned set. -/
theorem c2_required_coverage_witness :
    "p" ∈ ([("p", Val.bool true)] : ArgSet).map Prod.fst := by
  refine c2_required_coverage_amended boolSchema 24
    [[("p", Val.bool true)], [("p", Val.bool false)]]
    [("p", Val.bool true)] "p" ?_ ?_ rfl (List.mem_cons_self _ _) (by simp [boolSchema])
  · intro r hr
    simp only [boolSchema, List.mem_singleton] at hr
    subst hr
    exact ⟨.mk (some "boolean") none none none none none, by simp [boolSchema]⟩
  · intro p hp _ vs hvs
    simp only [boolSchema, List.mem_singleton] at hp
    subst hp
    have hv : values_for_param (Fragment.mk (some "boolean") none none none none none) =
        .ok [.bool true, .bool false] := rfl
    rw [hv] at hvs
    simp only [Except.ok.injEq] at hvs
    rw [← hvs]
    simp

/-! ### Order facts about the key comparison and the sort -/

/-- `UInt32 <` is the order of the underlying numerals. -/
theorem uint32_lt_iff (x y : UInt32) : x < y ↔ x.toNat < y.toNat := Iff.rfl

/-- One unfolding step of the code-point comparison. -/
theorem charsLe_cons (a b : Char) (as bs : List Char) :
    charsLe (a :: as) (b :: bs) = true ↔
      (a.val.toNat < b.val.toNat ∨ (a.val.toNat = b.val.toNat ∧ charsLe as bs = true)) := by
  simp only [charsLe]
  rcases Nat.lt_trichotomy a.val.toNat b.val.toNat with h | h | h
  · rw [if_pos ((uint32_lt_iff _ _).mpr h)]
    simp [h]
  · rw [if_neg (fun hc => absurd ((uint32_lt_iff _ _).mp hc) (by omega)),
        if_neg (fun hc => absurd ((uint32_lt_iff _ _).mp hc) (by omega))]
    simp [h]
  · rw [if_neg (fun hc => absurd ((uint32_lt_iff _ _).mp hc) (by omega)),
        if_pos ((uint32_lt_iff _ _).mpr h)]
    simp only [Bool.false_eq_true, false_iff]
    rintro (hlt | ⟨heq, -⟩) <;> omega

/-- The code-point comparison is total. -/
theorem charsLe_total : ∀ (as bs : List Char), charsLe as bs = true ∨ charsLe bs as = true := by
  intro as
  induction as with
  | nil => intro bs; exact Or.inl rfl
  | cons a as ih =>
    intro bs
    cases bs with
    | nil => exact Or.inr rfl
    | cons b bs =>
      rw [charsLe_cons, charsLe_cons]
      rcases Nat.lt_trichotomy a.val.toNat b.val.toNat with h | h | h
      · exact Or.inl (Or.inl h)
      · rcases ih bs with h' | h'
        · exact Or.inl (Or.inr ⟨h, h'⟩)
        · exact Or.inr (Or.inr ⟨h.symm, h'⟩)
      · exact Or.inr (Or.inl h)

/-- The code-point comparison is transitive. -/
theorem charsLe_trans : ∀ (as bs cs : List Char),
    charsLe as bs = true → charsLe bs cs = true → charsLe as cs = true := by
  intro as
  induction as with
  | nil => intro bs cs _ _; rfl
  | cons a as ih =>
    intro bs cs h1 h2
    cases bs with
    | nil => exact absurd h1 (by simp [charsLe])
    | cons b bs =>
      cases cs with
      | nil => exact absurd h2 (by simp [charsLe])
      | cons c cs =>
        rw [charsLe_cons] at h1 h2 ⊢
        rcases h1 with h1 | ⟨h1, h1'⟩ <;> rcases h2 with h2 | ⟨h2, h2'⟩
        · exact Or.inl (by omega)
        · exact Or.inl (by omega)
        · exact Or.inl (by omega)
        · exact Or.inr ⟨by omega, ih bs cs h1' h2'⟩

/-- The code-point comparison is antisymmetric. -/
theorem charsLe_antisymm : ∀ (as bs : List Char),
    charsLe as bs = true → charsLe bs as = true → as = bs := by
  intro as
  induction as with
  | nil =>
    intro bs h1 h2
    cases bs with
    | nil => rfl
    | cons b bs => exact absurd h2 (by simp [charsLe])
  | cons a as ih =>
    intro bs h1 h2
    cases bs with
    | nil => exact absurd h1 (by simp [charsLe])
    | cons b bs =>
      rw [charsLe_cons] at h1 h2
      rcases h1 with h1 | ⟨h1, h1'⟩ <;> rcases h2 with h2 | ⟨h2, h2'⟩
      · omega
      · omega
      · omega
      · have hc : a = b := Char.ext_iff.mpr (UInt32.ext h1)
        rw [hc, ih bs h1' h2']

/-- Python string `<=` is total. -/
theorem strLe_total (a b : String) : strLe a b = true ∨ strLe b a = true :=
  charsLe_total a.data b.data

/-- Python string `<=` is transitive. -/
theorem strLe_trans {a b c : String} (h1 : strLe a b = true) (h2 : strLe b c = true) :
    strLe a c = true :=
  charsLe_trans a.data b.data c.data h1 h2

/-- Python string `<=` is antisymmetric. -/
theorem strLe_antisymm {a b : String} (h1 : strLe a b = true) (h2 : strLe b a = true) :
    a = b := by
  obtain ⟨da⟩ := a
  obtain ⟨db⟩ := b
  have : da = db := charsLe_antisymm da db h1 h2
  rw [this]

/-- Membership through `ordInsert`. -/
theorem mem_ordInsert (p x : String × Val) : ∀ (l : ArgSet),
    x ∈ ordInsert p l ↔ x = p ∨ x ∈ l := by
  intro l
  induction l with
  | nil => simp [ordInsert]
  | cons q rest ih =>
    simp only [ordInsert]
    by_cases h : strLe p.1 q.1
    · rw [if_pos h]
      simp [or_comm, or_left_comm]
    · rw [if_neg h]
      simp only [List.mem_cons, ih]
      tauto

/-- `ordInsert` is a permutation of consing. -/
theorem ordInsert_perm (p : String × Val) : ∀ (l : ArgSet), List.Perm (ordInsert p l) (p :: l) := by
  intro l
  induction l with
  | nil => exact List.Perm.refl _
  | cons q rest ih =>
    simp only [ordInsert]
    by_cases h : strLe p.1 q.1
    · rw [if_pos h]
    · rw [if_neg h]
      exact (ih.cons q).trans (List.Perm.swap p q rest)

/-- `sortPairs` permutes its input. -/
theorem sortPairs_perm : ∀ (l : ArgSet), List.Perm (sortPairs l) l := by
  intro l
  induction l with
  | nil => exact List.Perm.refl _
  | cons p rest ih => exact (ordInsert_perm p (sortPairs rest)).trans (ih.cons p)

/-- Inserting preserves key-sortedness. -/
theorem ordInsert_sorted (p : String × Val) : ∀ (l : ArgSet),
    l.Pairwise (fun x y => strLe x.1 y.1 = true) →
    (ordInsert p l).Pairwise (fun x y => strLe x.1 y.1 = true) := by
  intro l
  induction l with
  | nil => intro _; simp [ordInsert]
  | cons q rest ih =>
    intro hs
    rcases List.pairwise_cons.mp hs with ⟨hq, hrest⟩
    simp only [ordInsert]
    by_cases h : strLe p.1 q.1
    · rw [if_pos h]
      refine List.pairwise_cons.mpr ⟨?_, hs⟩
      intro x hx
      rcases List.mem_cons.mp hx with rfl | hx'
      · exact h
      · exact strLe_trans h (hq x hx')
    · rw [if_neg h]
      refine List.pairwise_cons.mpr ⟨?_, ih hrest⟩
      intro x hx
      rcases (mem_ordInsert p x rest).mp hx with rfl | hx'
      · rcases strLe_total x.1 q.1 with h' | h'
        · exact absurd h' h
        · exact h'
      · exact hq x hx'

/-- The canonical dedup key is key-sorted. -/
theorem sortPairs_sorted : ∀ (l : ArgSet),
    (sortPairs l).Pairwise (fun x y => strLe x.1 y.1 = true) := by
  intro l
  induction l with
  | nil => simp [sortPairs]
  | cons p rest ih => exact ordInsert_sorted p (sortPairs rest) ih

/-- Two key-sorted pair lists with distinct keys and the same members are
equal. -/
theorem sorted_nodup_ext : ∀ (a b : ArgSet),
    a.Pairwise (fun x y => strLe x.1 y.1 = true) →
    b.Pairwise (fun x y => strLe x.1 y.1 = true) →
    (a.map Prod.fst).Nodup → (b.map Prod.fst).Nodup →
    (∀ p, p ∈ a ↔ p ∈ b) → a = b := by
  intro a
  induction a with
  | nil =>
    intro b _ _ _ _ hmem
    cases b with
    | nil => rfl
    | cons q bs => exact absurd ((hmem q).mpr (by simp)) (by simp)
  | cons p as ih =>
    intro b hsa hsb hna hnb hmem
    cases b with
    | nil => exact absurd ((hmem p).mp (by simp)) (by simp)
    | cons q bs =>
      rcases List.pairwise_cons.mp hsa with ⟨hpa, hsa'⟩
      rcases List.pairwise_cons.mp hsb with ⟨hqb, hsb'⟩
      simp only [List.map_cons, List.nodup_cons] at hna hnb
      have hpq : p = q := by
        rcases List.mem_cons.mp ((hmem p).mp (by simp)) with h | hpbs
        · exact h
        · rcases List.mem_cons.mp ((hmem q).mpr (by simp)) with h | hqas
          · exact h.symm
          · have h1 : strLe q.1 p.1 = true := hqb p hpbs
            have h2 : strLe p.1 q.1 = true := hpa q hqas
            have hk : p.1 = q.1 := strLe_antisymm h2 h1
            exact absurd (List.mem_map.mpr ⟨p, hpbs, hk⟩) hnb.1
      subst hpq
      have htail : ∀ x, x ∈ as ↔ x ∈ bs := by
        intro x
        constructor
        · intro hx
          rcases List.mem_cons.mp ((hmem x).mp (List.mem_cons_of_mem _ hx)) with rfl | h
          · exact absurd (List.mem_map.mpr ⟨x, hx, rfl⟩) hna.1
          · exact h
        · intro hx
          rcases List.mem_cons.mp ((hmem x).mpr (List.mem_cons_of_mem _ hx)) with rfl | h
          · exact absurd (List.mem_map.mpr ⟨x, hx, rfl⟩) hnb.1
          · exact h
      rw [ih bs hsa' hsb' hna.2 hnb.2 htail]

mutual
/-- Python `==` is reflexive on values. -/
theorem pyEq_refl : (v : Val) → pyEq v v = true
  | .str s => by simp [pyEq]
  | .num q => by simp [pyEq]
  | .bool b => by simp [pyEq]
  | .null => rfl
  | .arr as => by simp only [pyEq]; exact pyEqList_refl as
  | .obj fs => by simp only [pyEq]; exact pyEqFields_refl fs

/-- Python `==` is reflexive on value lists. -/
theorem pyEqList_refl : (as : List Val) → pyEqList as as = true
  | [] => rfl
  | a :: as => by simp only [pyEqList, Bool.and_eq_true]; exact ⟨pyEq_refl a, pyEqList_refl as⟩

/-- Python `==` is reflexive on field lists. -/
theorem pyEqFields_refl : (fs : List (String × Val)) → pyEqFields fs fs = true
  | [] => rfl
  | (k, v) :: fs => by
    simp only [pyEqFields, Bool.and_eq_true]
    exact ⟨⟨by simp, pyEq_refl v⟩, pyEqFields_refl fs⟩
end

/-- Key equality is reflexive. -/
theorem keyEq_refl : ∀ (k : ArgSet), keyEq k k = true := by
  intro k
  induction k with
  | nil => rfl
  | cons p rest ih =>
    obtain ⟨n, v⟩ := p
    simp only [keyEq, Bool.and_eq_true]
    exact ⟨⟨by simp, pyEq_refl v⟩, ih⟩

/-- Two argument sets with distinct keys and identical contents produce
the same canonical dedup key. -/
theorem canon_key_eq_of_same (a b : ArgSet)
    (hna : (a.map Prod.fst).Nodup) (hnb : (b.map Prod.fst).Nodup)
    (hmem : ∀ p, p ∈ a ↔ p ∈ b) (ka : ArgSet)
    (hka : canon_key a = .ok ka) : canon_key b = .ok ka := by
  unfold canon_key at hka ⊢
  split at hka
  · rename_i hall
    simp only [Except.ok.injEq] at hka
    rw [if_pos ?hb]
    case hb =>
      simp only [List.all_eq_true] at hall ⊢
      intro p hp
      exact hall p ((hmem p).mpr hp)
    have hsorteq : sortPairs b = sortPairs a := by
      refine sorted_nodup_ext _ _ (sortPairs_sorted b) (sortPairs_sorted a) ?_ ?_ ?_
      · exact (((sortPairs_perm b).map Prod.fst).nodup_iff).mpr hnb
      · exact (((sortPairs_perm a).map Prod.fst).nodup_iff).mpr hna
      · intro p
        rw [(sortPairs_perm b).mem_iff, (sortPairs_perm a).mem_iff]
        exact (hmem p).symm
    rw [hsorteq, hka]
  · exact absurd hka (by simp)

/-- The claim's notion of non-identical contents: the two sets differ as
unordered collections of key/value pairs, values compared structurally. -/
def distinctContents (a b : ArgSet) : Prop := ¬ ∀ p : String × Val, p ∈ a ↔ p ∈ b

/-- The dedup loop keeps pairwise non-identical sets, given that every
set carries distinct keys and every accumulated set's key is in `seen`. -/
theorem dedup_loop_pairwise (mc : Int) : ∀ (l seen u r : List ArgSet),
    dedup_loop mc l seen u = .ok r →
    (∀ x ∈ l, (x.map Prod.fst).Nodup) →
    (∀ x ∈ u, (x.map Prod.fst).Nodup) →
    (∀ x ∈ u, ∃ k, canon_key x = .ok k ∧ keyMem k seen = true) →
    u.Pairwise distinctContents →
    r.Pairwise distinctContents := by
  intro l
  induction l with
  | nil =>
    intro seen u r h _ _ _ hpw
    simp only [dedup_loop, Except.ok.injEq] at h
    exact h ▸ hpw
  | cons args rest ih =>
    intro seen u r h hl hu hseen hpw
    simp only [dedup_loop] at h
    split at h
    · exact absurd h (by simp)
    · rename_i key hck
      by_cases hm : keyMem key seen
      · rw [if_pos hm] at h
        exact ih _ _ _ h (fun x hx => hl x (List.mem_cons_of_mem _ hx)) hu hseen hpw
      · rw [if_neg hm] at h
        have hargsnd : (args.map Prod.fst).Nodup := hl args (by simp)
        have hnew : (u ++ [args]).Pairwise distinctContents := by
          rw [List.pairwise_append]
          refine ⟨hpw, by simp, ?_⟩
          intro x hx y hy
          rw [List.mem_singleton] at hy
          intro hsame
          rw [hy] at hsame
          obtain ⟨kx, hkx, hkxm⟩ := hseen x hx
          have hargk : canon_key args = .ok kx :=
            canon_key_eq_of_same x args (hu x hx) hargsnd hsame kx hkx
          rw [hck] at hargk
          injection hargk with hk
          rw [← hk] at hkxm
          exact hm hkxm
        split at h
        · simp only [Except.ok.injEq] at h
          exact h ▸ hnew
        · refine ih _ _ _ h (fun x hx => hl x (List.mem_cons_of_mem _ hx)) ?_ ?_ hnew
          · intro x hx
            rcases List.mem_append.mp hx with hx' | hx'
            · exact hu x hx'
            · rw [List.mem_singleton] at hx'
              subst hx'
              exact hargsnd
          · intro x hx
            rcases List.mem_append.mp hx with hx' | hx'
            · obtain ⟨k, hk1, hk2⟩ := hseen x hx'
              refine ⟨k, hk1, ?_⟩
              simp only [keyMem, List.any_cons, Bool.or_eq_true]
              exact Or.inr hk2
            · rw [List.mem_singleton] at hx'
              subst hx'
              refine ⟨key, hck, ?_⟩
              simp only [keyMem, List.any_cons, Bool.or_eq_true]
              exact Or.inl (keyEq_refl key)

/-- The optional-parameter pass preserves distinct keys, given fresh and
pairwise-distinct optional names. -/
theorem expand_optional_nodup : ∀ (specs : List (String × Fragment)) (sets r : List ArgSet),
    expand_optional specs sets = .ok r →
    (specs.map Prod.fst).Nodup →
    (∀ x ∈ sets, (x.map Prod.fst).Nodup ∧ ∀ m ∈ specs.map Prod.fst, m ∉ x.map Prod.fst) →
    ∀ x ∈ r, (x.map Prod.fst).Nodup := by
  intro specs
  induction specs with
  | nil =>
    intro sets r h _ hsets
    simp only [expand_optional, Except.ok.injEq] at h
    subst h
    exact fun x hx => (hsets x hx).1
  | cons p rest ih =>
    intro sets r h hnd hsets
    obtain ⟨m, f⟩ := p
    simp only [expand_optional] at h
    split at h
    · exact absurd h (by simp)
    · simp only [List.map_cons, List.nodup_cons] at hnd
      refine ih _ _ h hnd.2 ?_
      intro x hx
      simp only [expand_step, List.mem_append, List.mem_flatMap, List.mem_map] at hx
      rcases hx with hx | ⟨args, hargs, v, _, rfl⟩
      · obtain ⟨h1, h2⟩ := hsets x hx
        exact ⟨h1, fun m' hm' => h2 m' (by simp [hm'])⟩
      · obtain ⟨h1, h2⟩ := hsets args hargs
        have hmnotin : m ∉ args.map Prod.fst := h2 m (by simp)
        constructor
        · simp only [List.map_append, List.map_cons, List.map_nil]
          rw [List.nodup_append]
          refine ⟨h1, by simp, ?_⟩
          intro a ha hb
          rw [List.mem_singleton] at hb
          subst hb
          exact hmnotin ha
        · intro m' hm'
          simp only [List.map_append, List.map_cons, List.map_nil, List.mem_append,
            List.mem_singleton]
          rintro (hin | rfl)
          · exact h2 m' (by simp [hm']) hin
          · exact hnd.1 hm'

/-- Under the distinct-key guarantee of a real `properties` dict, every
accumulated argument set has distinct keys. -/
theorem build_keys_nodup (s : Schema) (hWF : s.WF) (sets : List ArgSet)
    (hb : build_arg_sets s = .ok sets) : ∀ x ∈ sets, (x.map Prod.fst).Nodup := by
  obtain ⟨rv, hrv, hexp⟩ := build_arg_sets_eq s sets hb
  have hreqnd : ((requiredSpecs s).map Prod.fst).Nodup :=
    hWF.sublist ((List.filter_sublist _).map Prod.fst)
  have hoptnd : ((optionalSpecs s).map Prod.fst).Nodup :=
    hWF.sublist ((List.filter_sublist _).map Prod.fst)
  have hdisj : ∀ m ∈ (optionalSpecs s).map Prod.fst, m ∉ (requiredSpecs s).map Prod.fst := by
    intro m hmo hmr
    simp only [optionalSpecs, List.mem_map] at hmo
    simp only [requiredSpecs, List.mem_map] at hmr
    obtain ⟨po, hpo, rfl⟩ := hmo
    obtain ⟨pr, hpr, hpr1⟩ := hmr
    have h1 := (List.mem_filter.mp hpo).2
    have h2 := (List.mem_filter.mp hpr).2
    rw [hpr1] at h2
    simp at h1
    exact h1 (List.elem_iff.mp h2)
  refine expand_optional_nodup _ _ _ hexp hoptnd ?_
  intro x hx
  have hkeys : x.map Prod.fst = (requiredSpecs s).map Prod.fst := by
    rw [baseSets_keys rv x hx, required_values_names _ _ hrv]
  exact ⟨by rw [hkeys]; exact hreqnd, fun m hm => by rw [hkeys]; exact hdisj m hm⟩

/-- C3: no two returned argument sets have identical contents — for a
schema whose `properties` keys are distinct (as in any real dict), the
returned list is pairwise non-identical as unordered pair collections
under structural value equality. -/
theorem c3_dedup_pairwise_distinct :
    ∀ (s : Schema) (mc : Int) (l : List ArgSet), s.WF →
      generate_arg_sets s mc = .ok l → l.Pairwise distinctContents := by
  intro s mc l hWF hg
  rcases generate_arg_sets_cases s mc l hg with ⟨_, rfl⟩ | ⟨hds, _⟩
  · simp
  · obtain ⟨sets, hb, hdl⟩ := dedup_stage_eq _ _ _ hds
    exact dedup_loop_pairwise mc sets [] [] l hdl (build_keys_nodup s hWF sets hb)
      (by simp) (by simp) List.Pairwise.nil

/-- C3 witness: the two boolean-schema results have distinct contents. -/
theorem c3_dedup_witness :
    ([[("p", Val.bool true)], [("p", Val.bool false)]] : List ArgSet).Pairwise
      distinctContents :=
  c3_dedup_pairwise_distinct boolSchema 24 _ (by simp [Schema.WF, boolSchema]) rfl

/-! ### Null-freedom -/

mutual
/-- A value contains no `null` at any depth. -/
def Val.noNull : Val → Bool
  | .null => false
  | .str _ => true
  | .num _ => true
  | .bool _ => true
  | .arr as => noNullList as
  | .obj fs => noNullFields fs

/-- All values of a list are null-free. -/
def noNullList : List Val → Bool
  | [] => true
  | v :: vs => v.noNull && noNullList vs

/-- All field values are null-free. -/
def noNullFields : List (String × Val) → Bool
  | [] => true
  | (_, v) :: fs => v.noNull && noNullFields fs
end

/-- A fragment whose own null sources are clean: no `null` inside its
`enum` members or its `default`, recursively through `items`. -/
def Fragment.noNullSources (f : Fragment) : Bool :=
  match f with
  | .mk _ en _ _ items df =>
    (match en with | some es => noNullList es | none => true) &&
    ((match df with | some d => d.noNull | none => true) &&
     (match items with | some it => Fragment.noNullSources it | none => true))
termination_by structural f

/-- Membership form of `noNullList`. -/
theorem noNullList_iff : ∀ (as : List Val), noNullList as = true ↔ ∀ v ∈ as, v.noNull = true := by
  intro as
  induction as with
  | nil => simp [noNullList]
  | cons a as ih => simp [noNullList, ih]

/-- Unfolding of `Fragment.noNullSources` by fields. -/
theorem noNullSources_parts (ty : Option String) (en : Option (List Val))
    (mn mx : Option Rat) (items : Option Fragment) (df : Option Val) :
    (Fragment.mk ty en mn mx items df).noNullSources = true ↔
      ((∀ es, en = some es → noNullList es = true) ∧
       (∀ d, df = some d → d.noNull = true) ∧
       (∀ it, items = some it → it.noNullSources = true)) := by
  cases en <;> cases df <;> cases items <;>
    simp [Fragment.noNullSources]

/-- The sampler never invents a `null`: with clean null sources, every
candidate value is null-free. -/
theorem values_noNull : ∀ (f : Fragment), ∀ (vs : List Val), values_for_param f = .ok vs →
    f.noNullSources = true → ∀ v ∈ vs, v.noNull = true := by
  intro f
  induction f using values_for_param.induct with
  | case1 ty mn mx items df es =>
    intro vs hv hn v hvv
    rw [values_for_param.eq_def] at hv
    simp only [Except.ok.injEq] at hv
    subst hv
    exact (noNullList_iff es).mp (((noNullSources_parts _ _ _ _ _ _).mp hn).1 es rfl) v hvv
  | case2 ty mn mx items df t ht =>
    intro vs hv hn v hvv
    have ht' : ty.getD "string" = "boolean" := ht
    rw [values_for_param.eq_def] at hv
    simp only [ht', if_true, Except.ok.injEq] at hv
    subst hv
    exact (by decide : ∀ w ∈ [Val.bool true, Val.bool false], w.noNull = true) v hvv
  | case3 ty mn mx items df t h1 h2 h3 =>
    intro vs hv hn v hvv
    have h1' : ¬ ty.getD "string" = "boolean" := h1
    have h2' : ty.getD "string" = "integer" ∨ ty.getD "string" = "number" := h2
    have h3' : ty.getD "string" = "integer" := h3
    rw [values_for_param.eq_def] at hv
    simp [h1', h2', h3'] at hv
    subst hv
    rcases List.mem_map.mp hvv with ⟨q, _, rfl⟩
    rfl
  | case4 ty mn mx items df t h1 h2 h3 =>
    intro vs hv hn v hvv
    have h1' : ¬ ty.getD "string" = "boolean" := h1
    have h2' : ty.getD "string" = "integer" ∨ ty.getD "string" = "number" := h2
    have h3' : ¬ ty.getD "string" = "integer" := h3
    have h5' : ty.getD "string" = "number" := h2'.resolve_left h3'
    rw [values_for_param.eq_def] at hv
    simp [h1', h2', h3', h5'] at hv
    subst hv
    rcases List.mem_map.mp hvv with ⟨q, _, rfl⟩
    rfl
  | case5 ty mn mx df t h1 h2 h3 =>
    intro vs hv hn v hvv
    have h1' : ¬ ty.getD "string" = "boolean" := h1
    have h2' : ¬ (ty.getD "string" = "integer" ∨ ty.getD "string" = "number") := h2
    have h3' : ty.getD "string" = "array" := h3
    rw [values_for_param.eq_def] at hv
    simp [h1', h2', h3'] at hv
    subst hv
    exact (by decide : ∀ w ∈ [Val.arr [Val.str "item"]], w.noNull = true) v hvv
  | case6 ty mn mx df t h1 h2 h3 it hit =>
    intro vs hv hn v hvv
    have h1' : ¬ ty.getD "string" = "boolean" := h1
    have h2' : ¬ (ty.getD "string" = "integer" ∨ ty.getD "string" = "number") := h2
    have h3' : ty.getD "string" = "array" := h3
    rw [values_for_param.eq_def] at hv
    simp [h1', h2', h3', hit] at hv
    subst hv
    exact (by decide : ∀ w ∈ [Val.arr [Val.str "item"]], w.noNull = true) v hvv
  | case7 ty mn mx df t h1 h2 h3 it hit e he ih =>
    intro vs hv hn v hvv
    have h1' : ¬ ty.getD "string" = "boolean" := h1
    have h2' : ¬ (ty.getD "string" = "integer" ∨ ty.getD "string" = "number") := h2
    have h3' : ty.getD "string" = "array" := h3
    rw [values_for_param.eq_def] at hv
    simp [h1', h2', h3', hit, he] at hv
  | case8 ty mn mx df t h1 h2 h3 it hit he ih =>
    intro vs hv hn v hvv
    have h1' : ¬ ty.getD "string" = "boolean" := h1
    have h2' : ¬ (ty.getD "string" = "integer" ∨ ty.getD "string" = "number") := h2
    have h3' : ty.getD "string" = "array" := h3
    rw [values_for_param.eq_def] at hv
    simp [h1', h2', h3', hit, he] at hv
  | case9 ty mn mx df t h1 h2 h3 it hit w tail he ih =>
    intro vs hv hn v hvv
    have h1' : ¬ ty.getD "string" = "boolean" := h1
    have h2' : ¬ (ty.getD "string" = "integer" ∨ ty.getD "string" = "number") := h2
    have h3' : ty.getD "string" = "array" := h3
    rw [values_for_param.eq_def] at hv
    simp [h1', h2', h3', hit, he] at hv
    subst hv
    rw [List.mem_singleton] at hvv
    subst hvv
    have hitn : it.noNullSources = true :=
      ((noNullSources_parts _ _ _ _ _ _).mp hn).2.2 it rfl
    have hw := ih (w :: tail) he hitn w (by simp)
    simp [Val.noNull, noNullList, hw]
  | case10 ty mn mx items df t h1 h2 h3 h4 =>
    intro vs hv hn v hvv
    have h1' : ¬ ty.getD "string" = "boolean" := h1
    have h2' : ¬ (ty.getD "string" = "integer" ∨ ty.getD "string" = "number") := h2
    have h3' : ¬ ty.getD "string" = "array" := h3
    have h4' : ty.getD "string" = "object" := h4
    rw [values_for_param.eq_def] at hv
    simp [h1', h2', h3', h4'] at hv
    subst hv
    exact (by decide : ∀ w ∈ [Val.obj []], w.noNull = true) v hvv
  | case11 ty mn mx items df t h1 h2 h3 h4 =>
    intro vs hv hn v hvv
    have h1' : ¬ ty.getD "string" = "boolean" := h1
    have h2' : ¬ (ty.getD "string" = "integer" ∨ ty.getD "string" = "number") := h2
    have h3' : ¬ ty.getD "string" = "array" := h3
    have h4' : ¬ ty.getD "string" = "object" := h4
    rw [values_for_param.eq_def] at hv
    simp [h1', h2', h3', h4'] at hv
    subst hv
    rw [List.mem_singleton] at hvv
    subst hvv
    cases df with
    | none => rfl
    | some d => exact ((noNullSources_parts _ _ _ _ _ _).mp hn).2.1 d rfl

/-- Every value in a product tuple comes from one of the factors. -/
theorem listProd_mem_mem : ∀ (L : List (List Val)) (t : List Val), t ∈ listProd L →
    ∀ v ∈ t, ∃ vs ∈ L, v ∈ vs := by
  intro L
  induction L with
  | nil =>
    intro t ht v hv
    simp only [listProd, List.mem_singleton] at ht
    subst ht
    exact absurd hv (by simp)
  | cons vs rest ih =>
    intro t ht v hv
    simp only [listProd, List.mem_flatMap, List.mem_map] at ht
    obtain ⟨w, hw, t', ht', rfl⟩ := ht
    rcases List.mem_cons.mp hv with rfl | hv'
    · exact ⟨vs, by simp, hw⟩
    · obtain ⟨vs', hvs', hv''⟩ := ih t' ht' v hv'
      exact ⟨vs', List.mem_cons_of_mem _ hvs', hv''⟩

/-- The optional-parameter pass preserves null-freedom of every stored
value, given clean optional fragments. -/
theorem expand_optional_noNull : ∀ (specs : List (String × Fragment)) (sets r : List ArgSet),
    expand_optional specs sets = .ok r →
    (∀ q ∈ specs, (q : String × Fragment).2.noNullSources = true) →
    (∀ x ∈ sets, ∀ pr ∈ x, (pr : String × Val).2.noNull = true) →
    ∀ x ∈ r, ∀ pr ∈ x, (pr : String × Val).2.noNull = true := by
  intro specs
  induction specs with
  | nil =>
    intro sets r h _ hsets
    simp only [expand_optional, Except.ok.injEq] at h
    subst h
    exact hsets
  | cons p rest ih =>
    intro sets r h hspecs hsets
    obtain ⟨m, f⟩ := p
    simp only [expand_optional] at h
    split at h
    · exact absurd h (by simp)
    · rename_i cands hc
      refine ih _ _ h (fun q hq => hspecs q (List.mem_cons_of_mem _ hq)) ?_
      intro x hx pr hpr
      simp only [expand_step, List.mem_append, List.mem_flatMap, List.mem_map] at hx
      rcases hx with hx | ⟨args, hargs, v, hv, rfl⟩
      · exact hsets x hx pr hpr
      · rcases List.mem_append.mp hpr with hpr' | hpr'
        · exact hsets args hargs pr hpr'
        · rw [List.mem_singleton] at hpr'
          subst hpr'
          exact values_noNull f cands hc (hspecs (m, f) (by simp)) v hv

/-- C10 amended: for a schema none of whose fragments carries `null`
among its enum members or as its default (recursively through `items`),
no value of any returned argument mapping contains `null` at any depth.
(A `null` enum member or default passes through verbatim — see the
counterexample.) -/
theorem c10_no_null_amended :
    ∀ (s : Schema) (mc : Int) (l : List ArgSet) (args : ArgSet) (pr : String × Val),
      (∀ q ∈ s.properties, (q : String × Fragment).2.noNullSources = true) →
      generate_arg_sets s mc = .ok l → args ∈ l → pr ∈ args →
      pr.2.noNull = true := by
  intro s mc l args pr hprops hg hmem hpr
  rcases generate_arg_sets_cases s mc l hg with ⟨_, rfl⟩ | ⟨hds, _⟩
  · rw [List.mem_singleton] at hmem
    subst hmem
    exact absurd hpr (by simp)
  · obtain ⟨sets, hb, hdl⟩ := dedup_stage_eq _ _ _ hds
    have hargs : args ∈ sets := by
      rcases dedup_loop_mem mc sets [] [] l hdl args hmem with h0 | h1
      · exact absurd h0 (by simp)
      · exact h1
    obtain ⟨rv, hrv, hexp⟩ := build_arg_sets_eq s sets hb
    refine expand_optional_noNull _ _ _ hexp ?_ ?_ args hargs pr hpr
    · intro q hq
      exact hprops q (List.mem_filter.mp hq).1
    · intro x hx pr' hpr'
      simp only [baseSets, List.mem_map] at hx
      obtain ⟨tup, htup, rfl⟩ := hx
      obtain ⟨k, v⟩ := pr'
      have hv : v ∈ tup := (List.of_mem_zip hpr').2
      obtain ⟨vsl, hvsl, hvv⟩ := listProd_mem_mem _ tup htup v hv
      simp only [List.mem_map] at hvsl
      obtain ⟨q, hq, rfl⟩ := hvsl
      obtain ⟨f, hf, hvf⟩ := required_values_mem _ _ hrv q hq
      exact values_noNull f q.2 hvf (hprops (q.1, f) (List.mem_filter.mp hf).1) v hvv

/-- C10 witness: the boolean schema is null-source-free and its first
returned value is null-free. -/
theorem c10_no_null_witness : (Val.bool true).noNull = true := by
  refine c10_no_null_amended boolSchema 24 [[("p", Val.bool true)], [("p", Val.bool false)]]
    [("p", Val.bool true)] ("p", Val.bool true) ?_ rfl (List.mem_cons_self _ _) (by simp)
  intro q hq
  simp only [boolSchema, List.mem_singleton] at hq
  subst hq
  rfl
